import Mathlib

/-!
Verification of the `Table` component of `legend-pydataobj`
(`src/lgdo/types/table.py`), a columnar table of named, equal-length
columns built atop an ordered named-field container (`Struct`).

The embedding below translates `table.py` into Lean. Machine behaviour of
the collaborating column classes (`Array`, `VectorOfVectors`,
`ArrayOfEqualSizedArrays`, `Scalar`, `Struct`), whose source files are not
part of the core, is modelled from the specification where noted. Fallible
Python code (operations that may raise) is translated as `Except`.
-/

namespace LPD

/-- Modelled from the spec: every array-like column variant exposes an
in-place `resize(n)` that "pads or truncates to `n` rows, preserving
existing data up to `min(old_length, n)`". `resizeWith pad n l` is that
operation on a list, padding with `pad`. -/
def resizeWith (pad : α) (n : Nat) (l : List α) : List α :=
  l.take n ++ List.replicate (n - l.length) pad

deriving instance DecidableEq for Except

mutual

/-- A column of a `Table` (an LGDO): a fixed array (`arr`), an array of
equal-sized arrays (`aoesa`), a ragged vector of vectors (`vov`), a scalar
(`scal`, which has no length), or a nested table (`tbl`). Element data is
modelled over `Int`. -/
inductive LCol where
  | arr (data : List Int)
  | aoesa (data : List (List Int))
  | vov (data : List (List Int))
  | scal (v : Int)
  | tbl (t : LTable)

/-- The `Table` state: the `size` attribute (`Option` because the source
can leave it as Python `None`), the ordered name-to-column mapping
inherited from `Struct`, and the write cursor `loc`. -/
inductive LTable where
  | mk (size : Option Nat) (cols : List (String × LCol)) (loc : Nat)

end

def LTable.size : LTable → Option Nat
  | .mk s _ _ => s

def LTable.cols : LTable → List (String × LCol)
  | .mk _ c _ => c

def LTable.loc : LTable → Nat
  | .mk _ _ l => l

/-- Python `hasattr(obj, "__len__")` on a column: all array-like columns
and tables define `__len__`; a `Scalar` does not. -/
def LCol.hasLen : LCol → Bool
  | .scal _ => false
  | _ => true

/-- Python `len(obj)` on a column. `len` of a nested `Table` returns its
`size` attribute (`Table.__len__`, table.py line 89-91); if that attribute
is `None`, CPython raises, which we model as an error. `len` of a
`Scalar` raises `TypeError`. -/
def LCol.colLen : LCol → Except String Nat
  | .arr d => .ok d.length
  | .aoesa d => .ok d.length
  | .vov d => .ok d.length
  | .scal _ => .error "TypeError: object of type Scalar has no len()"
  | .tbl (.mk (some n) _ _) => .ok n
  | .tbl (.mk none _ _) => .error "TypeError: __len__ should return an int, not NoneType"

mutual

/-- `obj.resize(new_size)` on a column. Array-like columns pad/clip
(modelled from the spec, see `resizeWith`); a nested table recurses via
`Table.resize` (table.py lines 104-107); a `Scalar` has no `resize`. -/
def LCol.resize : LCol → Nat → Except String LCol
  | .arr d, n => .ok (.arr (resizeWith 0 n d))
  | .aoesa d, n => .ok (.aoesa (resizeWith [] n d))
  | .vov d, n => .ok (.vov (resizeWith [] n d))
  | .scal _, _ => .error "AttributeError: Scalar object has no attribute resize"
  | .tbl t, n =>
      match LTable.resizeGo t (some n) with
      | .error e => .error e
      | .ok t' => .ok (.tbl t')

/-- The loop body of `Table.resize` (table.py lines 95-107): iterate over
the fields threading `new_size`; the first field fixes `new_size` when it
was `None`; every later field whose `len` differs is resized in place. -/
def LTable.resizeCols : Option Nat → List (String × LCol) →
    Except String (Option Nat × List (String × LCol))
  | ns, [] => .ok (ns, [])
  | none, (f, o) :: rest =>
      match o.colLen with
      | .error e => .error e
      | .ok l =>
          match LTable.resizeCols (some l) rest with
          | .error e => .error e
          | .ok (ns', rest') => .ok (ns', (f, o) :: rest')
  | some n, (f, o) :: rest =>
      match o.colLen with
      | .error e => .error e
      | .ok l =>
          if l ≠ n then
            match o.resize n with
            | .error e => .error e
            | .ok o' =>
                match LTable.resizeCols (some n) rest with
                | .error e => .error e
                | .ok (ns', rest') => .ok (ns', (f, o') :: rest')
          else
            match LTable.resizeCols (some n) rest with
            | .error e => .error e
            | .ok (ns', rest') => .ok (ns', (f, o) :: rest')

/-- `Table.resize(new_size=None, do_warn=...)` (table.py lines 93-108):
run the field loop, then `self.size = new_size`. Warnings are advisory
diagnostics only and are not modelled. -/
def LTable.resizeGo : LTable → Option Nat → Except String LTable
  | .mk _ cs l, ns =>
      match LTable.resizeCols ns cs with
      | .error e => .error e
      | .ok (ns', cs') => .ok (.mk ns' cs' l)

end

/-- `lenIs c n` decides whether `len(c)` succeeds and equals `n`. -/
def lenIs (c : LCol) (n : Nat) : Bool :=
  match c.colLen with
  | .ok m => m == n
  | .error _ => false

/-- The table size invariant of the spec: every column `c` satisfies
`c.length() == table.size` (vacuous for a table with no columns). -/
def LTable.sizeOk (t : LTable) : Bool :=
  t.cols.all fun p =>
    match t.size with
    | some n => lenIs p.2 n
    | none => false

/-- Python dict lookup on the ordered name-keyed mapping: the value bound
to `name`, if any. -/
def alookup (cols : List (String × α)) (name : String) : Option α :=
  match cols with
  | [] => none
  | (k, v) :: rest => if name = k then some v else alookup rest name

/-- Modelled from the spec: `Struct.add_field` stores the column in the
ordered name-to-column mapping ("ordered mapping of name → data object");
an existing key keeps its position with the value replaced, a new key is
appended (Python dict update semantics). Generic over the value type so the
reference model below can reuse it. -/
def updateAssoc (cols : List (String × α)) (name : String) (v : α) :
    List (String × α) :=
  if cols.any (·.1 = name) then
    cols.map (fun p => if p.1 = name then (name, v) else p)
  else cols ++ [(name, v)]

/-- `Table.__init__(size, col_dict, attrs)` (table.py lines 42-84): store
`col_dict` (by reference, via `Struct.__init__`); if it is non-empty, call
`resize(new_size=size, ...)`; otherwise execute
`self.size = size if size is not None else None` (line 81), translated
literally by `initEmptySize`. `loc` is 0. Metadata `attrs` play no
functional role and are not modelled. -/
def initEmptySize (size : Option Nat) : Option Nat :=
  match size with
  | some n => some n
  | none => none

def Table.init (size : Option Nat) (colDict : List (String × LCol)) :
    Except String LTable :=
  if colDict.length > 0 then
    LTable.resizeGo (.mk none colDict 0) size
  else .ok (.mk (initEmptySize size) [] 0)

/-- `Table.push_row` (table.py lines 110-111): `self.loc += 1`. -/
def LTable.pushRow : LTable → LTable
  | .mk s c l => .mk s c (l + 1)

/-- `Table.clear` (table.py lines 116-117): `self.loc = 0`. -/
def LTable.clear : LTable → LTable
  | .mk s c _ => .mk s c 0

/-- `Table.is_full` (table.py lines 113-114): `self.loc >= self.size`.
Comparing an `int` against `None` raises in Python, modelled as error. -/
def LTable.isFull (t : LTable) : Except String Bool :=
  match t.size with
  | some n => .ok (decide (n ≤ t.loc))
  | none => .error "TypeError: not supported between instances of int and NoneType"

/-- `Table.add_field(name, obj, use_obj_size)` (table.py lines 119-154):
reject objects without `__len__`; store via `Struct.add_field`; if `size`
is `None`, set it to `len(obj)`; if `size != len(obj)`, warn (advisory,
not modelled) and call `resize(new_size)` with `new_size = len(obj)` if
`use_obj_size` else `size`. `add_column` is a pure alias. -/
def LTable.addField (t : LTable) (name : String) (obj : LCol)
    (useObjSize : Bool) : Except String LTable :=
  if ¬ obj.hasLen then .error "TypeError: cannot add field of type" else
  let cols1 := updateAssoc t.cols name obj
  match obj.colLen with
  | .error e => .error e
  | .ok l =>
      let n := match t.size with
        | none => l
        | some n => n
      if n ≠ l then
        LTable.resizeGo (.mk (some n) cols1 t.loc)
          (some (if useObjSize then l else n))
      else .ok (.mk (some n) cols1 t.loc)

/-! ## Reference model for column aliasing

`Table.join` (table.py lines 164-192) stores *references* to
`other_table`'s column objects: `self.add_column(name, other_table[name])`
passes the column object itself, and `Struct.add_field` stores it without
copying. To state object identity and mutual visibility of in-place
mutation, tables here hold heap references (`Nat` indices into a `Heap` of
column objects) instead of column values; in-place operations update the
heap cell, never allocate. -/

/-- The object heap: cell `r` holds the column object referenced by `r`. -/
structure Heap where
  cells : List LCol

def Heap.get? (h : Heap) (r : Nat) : Option LCol := h.cells[r]?

def Heap.set (h : Heap) (r : Nat) (c : LCol) : Heap := ⟨h.cells.set r c⟩

/-- A table whose column mapping holds heap references. -/
structure RTable where
  size : Option Nat
  cols : List (String × Nat)
  loc : Nat

/-- The loop of `Table.resize` in the reference model: each referenced
column object whose `len` differs is resized *in place* (its heap cell is
updated; the reference itself never changes and no cell is allocated). -/
def rResizeCols (n : Nat) : Heap → List (String × Nat) → Except String Heap
  | h, [] => .ok h
  | h, (_, r) :: rest =>
      match h.get? r with
      | none => .error "stale reference"
      | some o =>
          match o.colLen with
          | .error e => .error e
          | .ok l =>
              if l ≠ n then
                match o.resize n with
                | .error e => .error e
                | .ok o' => rResizeCols n (h.set r o') rest
              else rResizeCols n h rest

/-- `Table.add_field` in the reference model (table.py lines 119-154):
identical control flow to `LTable.addField`, with the incoming column
passed by reference and reconciliation resizes applied to heap cells. -/
def RTable.addField (h : Heap) (t : RTable) (name : String) (r : Nat)
    (useObjSize : Bool) : Except String (Heap × RTable) :=
  match h.get? r with
  | none => .error "stale reference"
  | some obj =>
      if ¬ obj.hasLen then .error "TypeError: cannot add field of type" else
      let cols1 := updateAssoc t.cols name r
      match obj.colLen with
      | .error e => .error e
      | .ok l =>
          let n := match t.size with
            | none => l
            | some n => n
          if n ≠ l then
            let ns := if useObjSize then l else n
            match rResizeCols ns h cols1 with
            | .error e => .error e
            | .ok h' => .ok (h', ⟨some ns, cols1, t.loc⟩)
          else .ok (h, ⟨some n, cols1, t.loc⟩)

/-- The loop of `Table.join` (table.py lines 189-192): for each requested
name, `self.add_column(name, other_table[name])` — a `KeyError` if the
name is absent from `other`. The `loc` comparison on line 187-188 only
logs a warning and is not modelled. -/
def rJoinGo (other : RTable) : Heap → RTable → List String →
    Except String (Heap × RTable)
  | h, t, [] => .ok (h, t)
  | h, t, name :: rest =>
      match alookup other.cols name with
      | none => .error "KeyError"
      | some r =>
          match RTable.addField h t name r false with
          | .error e => .error e
          | .ok (h', t') => rJoinGo other h' t' rest

/-- The column names a join touches: `cols`, defaulting to all of
`other`'s column names in order (table.py lines 189-190). -/
def joinedNames (other : RTable) : Option (List String) → List String
  | some cs => cs
  | none => other.cols.map (·.1)

/-- `Table.join(other_table, cols, do_warn)` (table.py lines 164-192). -/
def RTable.join (h : Heap) (t : RTable) (other : RTable)
    (cols : Option (List String)) : Except String (Heap × RTable) :=
  rJoinGo other h t (joinedNames other cols)

/-- Reading column `name` of a reference-model table dereferences the
stored reference in the current heap. -/
def RTable.readCol (h : Heap) (t : RTable) (name : String) : Option LCol :=
  (alookup t.cols name).bind h.get?

/-! ## `Table.view_as` (table.py lines 356-429) -/

/-- Python exception classes raised by `view_as`. -/
inductive PyErr where
  | typeError (msg : String)
  | valueError (msg : String)
deriving DecidableEq

/-- Result of `Table.view_as`: a pandas dataframe (the frame assembly of
lines 393-415 is outside every claim and abstracted to the selected column
names) or an awkward record array (line 426). -/
inductive ViewResult where
  | pd (cols : List String)
  | akRecords
deriving DecidableEq

/-- `Table.view_as(library, with_units, cols, prefix)` (table.py lines
356-429): `"pd"` builds a dataframe; `"np"` raises `TypeError` ("Format np
is not supported for Tables."); `"ak"` raises `ValueError` when
`with_units` is requested and otherwise returns `ak.Array(self)`; any
other library raises `TypeError` ("... is not a supported third-party
format."). -/
def LTable.viewAs (t : LTable) (library : String) (withUnits : Bool)
    (cols : Option (List String)) : Except PyErr ViewResult :=
  if library = "pd" then
    .ok (.pd (match cols with
      | some cs => cs
      | none => t.cols.map (·.1)))
  else if library = "np" then
    .error (.typeError "Format np is not supported for Tables.")
  else if library = "ak" then
    if withUnits then
      .error (.valueError
        "Pint does not support Awkward yet, you must view the data with_units=False")
    else .ok .akRecords
  else .error (.typeError "is not a supported third-party format.")

def isTypeError : Except PyErr ViewResult → Bool
  | .error (.typeError _) => true
  | _ => false

/-! ## `Table.eval` (table.py lines 227-332)

`eval` compiles the expression, views every referenced column as a low
level object (`np` view for regular columns, `ak` view for
`VectorOfVectors`), and dispatches: `numexpr.evaluate` when no `ak` view
was made (fast path, lines 294-313), plain Python `eval` otherwise
(general path, lines 315-332). The arithmetic of the collaborator engines
(numexpr / numpy / awkward) is modelled for the numeric array-algebra
fragment the claims quantify over: elementwise `+`, `-`, `*` with
scalar broadcasting and equal-shape zipping; both engines compute
identical element values on that fragment, and numexpr materialises its
result as a numpy array (0-dimensional for an all-scalar expression). -/

/-- A dense numpy `ndarray`: a shape and row-major flat data. -/
structure NDArray where
  shape : List Nat
  data : List Int
deriving DecidableEq

def NDArray.ndim (a : NDArray) : Nat := a.shape.length

/-- `ndarray.item()` of a 0-dimensional array (its single element). -/
def NDArray.item (a : NDArray) : Int := a.data.headD 0

/-- A low-level value living in the evaluation environment or produced by
plain `eval`: a Python/numpy scalar (`pint`), a numpy array (`nd`), or an
awkward ragged array of depth 2 (`akr`). -/
inductive Val where
  | pint (z : Int)
  | nd (a : NDArray)
  | akr (rows : List (List Int))
deriving DecidableEq

/-- Structured evaluation errors (the source raises `NameError`,
broadcasting `ValueError`s from the engines, `numexpr` input rejection,
and the two `RuntimeError`s of lines 309-313 and 328-332). -/
inductive EvalErr where
  | nameError (n : String)
  | broadcastError
  | neUnsupported
  | viewTypeError (msg : String)
  | runtimeDim (ndim : Nat)
  | runtimeType (ty : String)
deriving DecidableEq

/-- Elementwise combination of two numpy arrays: equal shapes zip; a
0-dimensional operand broadcasts as a scalar; other shape pairs are
outside the modelled fragment and error. -/
def ndZip (f : Int → Int → Int) (a b : NDArray) : Except EvalErr NDArray :=
  if a.shape = b.shape then .ok ⟨a.shape, List.zipWith f a.data b.data⟩
  else if a.shape = [] then .ok ⟨b.shape, b.data.map (fun y => f a.item y)⟩
  else if b.shape = [] then .ok ⟨a.shape, a.data.map (fun x => f x b.item)⟩
  else .error .broadcastError

/-- Elementwise combination of two ragged arrays: matching outer length
and matching row lengths. -/
def akZip (f : Int → Int → Int) (x y : List (List Int)) :
    Except EvalErr (List (List Int)) :=
  if x.length = y.length ∧ (List.zip x y).all (fun p => p.1.length = p.2.length)
  then .ok (List.zipWith (List.zipWith f) x y)
  else .error .broadcastError

/-- A binary arithmetic operation on low-level values, with numpy/awkward
broadcasting on the modelled fragment: scalars broadcast over arrays and
ragged rows; a 1-dimensional numpy array broadcasts one scalar per ragged
row (the docstring example of table.py lines 258-271). -/
def applyBinop (f : Int → Int → Int) : Val → Val → Except EvalErr Val
  | .pint a, .pint b => .ok (.pint (f a b))
  | .pint a, .nd B => .ok (.nd ⟨B.shape, B.data.map (fun y => f a y)⟩)
  | .nd A, .pint b => .ok (.nd ⟨A.shape, A.data.map (fun x => f x b)⟩)
  | .nd A, .nd B =>
      match ndZip f A B with
      | .error e => .error e
      | .ok C => .ok (.nd C)
  | .pint a, .akr r => .ok (.akr (r.map (fun row => row.map (fun y => f a y))))
  | .akr r, .pint b => .ok (.akr (r.map (fun row => row.map (fun x => f x b))))
  | .nd A, .akr r =>
      if A.shape = [r.length] then
        .ok (.akr (List.zipWith (fun x row => row.map (fun y => f x y)) A.data r))
      else if A.shape = [] then
        .ok (.akr (r.map (fun row => row.map (fun y => f A.item y))))
      else .error .broadcastError
  | .akr r, .nd B =>
      if B.shape = [r.length] then
        .ok (.akr (List.zipWith (fun row y => row.map (fun x => f x y)) r B.data))
      else if B.shape = [] then
        .ok (.akr (r.map (fun row => row.map (fun x => f x B.item))))
      else .error .broadcastError
  | .akr x, .akr y =>
      match akZip f x y with
      | .error e => .error e
      | .ok z => .ok (.akr z)

/-- The expression fragment the claims quantify over: integer constants,
identifiers, and elementwise `+`, `-`, `*` — the numeric array algebra
available identically to `numexpr.evaluate` and plain `eval`. -/
inductive NExpr where
  | const (z : Int)
  | var (name : String)
  | add (a b : NExpr)
  | sub (a b : NExpr)
  | mul (a b : NExpr)
deriving DecidableEq

/-- The identifiers of the compiled expression (`c.co_names`,
table.py line 279 / 285), deduplicated as CPython does. -/
def NExpr.names : NExpr → List String
  | .const _ => []
  | .var n => [n]
  | .add a b => a.names ++ b.names
  | .sub a b => a.names ++ b.names
  | .mul a b => a.names ++ b.names

def NExpr.coNames (e : NExpr) : List String := e.names.eraseDups

/-- Plain Python `eval` of the expression over an environment of
low-level values (table.py line 317), restricted to the modelled numeric
fragment: constants are Python ints, identifiers are looked up in the
locals mapping, operators delegate to numpy/awkward arithmetic. -/
def pyEval (e : NExpr) (env : List (String × Val)) : Except EvalErr Val :=
  match e with
  | .const z => .ok (.pint z)
  | .var n =>
      match alookup env n with
      | some v => .ok v
      | none => .error (.nameError n)
  | .add a b =>
      match pyEval a env, pyEval b env with
      | .ok va, .ok vb => applyBinop (· + ·) va vb
      | .error e, _ => .error e
      | _, .error e => .error e
  | .sub a b =>
      match pyEval a env, pyEval b env with
      | .ok va, .ok vb => applyBinop (· - ·) va vb
      | .error e, _ => .error e
      | _, .error e => .error e
  | .mul a b =>
      match pyEval a env, pyEval b env with
      | .ok va, .ok vb => applyBinop (· * ·) va vb
      | .error e, _ => .error e
      | _, .error e => .error e

/-- `numexpr` materialises its result as a numpy array: a Python scalar
becomes a 0-dimensional array; awkward input is not accepted by the
engine. -/
def Val.toND : Val → Except EvalErr NDArray
  | .pint z => .ok ⟨[], [z]⟩
  | .nd a => .ok a
  | .akr _ => .error .neUnsupported

/-- `ne.evaluate(expr, local_dict=...)` (table.py lines 295-298): on the
modelled fragment it computes the same element values as plain `eval` and
returns them as a numpy array. -/
def neEvaluate (e : NExpr) (env : List (String × Val)) :
    Except EvalErr NDArray :=
  match pyEval e env with
  | .error err => .error err
  | .ok v => v.toND

/-- The fast-path result wrapping (table.py lines 300-313): 0 dimensions →
`Scalar(out_data.item())`; 1 → `Array(out_data)`; 2 →
`ArrayOfEqualSizedArrays(nda=out_data)`; anything else raises
`RuntimeError` naming the dimensionality. -/
inductive EvalResult where
  | scalar (z : Int)
  | array (a : NDArray)
  | aoesa (a : NDArray)
  | vov (rows : List (List Int))
deriving DecidableEq

def wrapNe (a : NDArray) : Except EvalErr EvalResult :=
  if a.ndim = 0 then .ok (.scalar a.item)
  else if a.ndim = 1 then .ok (.array a)
  else if a.ndim = 2 then .ok (.aoesa a)
  else .error (.runtimeDim a.ndim)

/-- The general-path result wrapping (table.py lines 319-332): an
`ak.Array` result becomes `Array` when 1-dimensional, else
`VectorOfVectors` (a ragged value of the modelled fragment always has
depth 2, so the `Array` branch is unreachable here); a value passing
`np.isscalar` (a Python or numpy scalar, *not* a 0-dimensional
`ndarray`) becomes `Scalar`; anything else — in particular a plain
`np.ndarray` — raises `RuntimeError` naming its type. -/
def wrapGeneral (v : Val) : Except EvalErr EvalResult :=
  match v with
  | .akr rows => .ok (.vov rows)
  | .pint z => .ok (.scalar z)
  | .nd _ => .error (.runtimeType "numpy.ndarray")

/-- The fast path of `Table.eval` (table.py lines 294-313). -/
def evalFastPath (e : NExpr) (env : List (String × Val)) :
    Except EvalErr EvalResult :=
  match neEvaluate e env with
  | .error err => .error err
  | .ok a => wrapNe a

/-- The general path of `Table.eval` (table.py lines 315-332). -/
def evalGeneralPath (e : NExpr) (env : List (String × Val)) :
    Except EvalErr EvalResult :=
  match pyEval e env with
  | .error err => .error err
  | .ok v => wrapGeneral v

/-- `self[obj].view_as(...)` for a referenced column (table.py lines
286-291): a `VectorOfVectors` is viewed as an awkward array, every other
column as numpy. Modelled from the spec for the column classes:
`Array.view_as("np")` is the 1-dimensional data, `ArrayOfEqualSizedArrays`
the 2-dimensional block, `Scalar` the scalar value; a nested `Table`
column raises the `TypeError` of `Table.view_as("np")` (lines 417-419). -/
def colView : LCol → Except EvalErr Val
  | .arr d => .ok (.nd ⟨[d.length], d⟩)
  | .aoesa d => .ok (.nd ⟨[d.length, (d.headD []).length], d.flatten⟩)
  | .vov d => .ok (.akr d)
  | .scal v => .ok (.pint v)
  | .tbl _ => .error (.viewTypeError "Format np is not supported for Tables.")

/-- The `self_unwrap` loop (table.py lines 283-291): for each identifier
of the expression that names a column, materialise its low-level view. -/
def selfUnwrap (cols : List (String × LCol)) :
    List String → Except EvalErr (List (String × Val))
  | [] => .ok []
  | n :: rest =>
      match alookup cols n with
      | none => selfUnwrap cols rest
      | some c =>
          match colView c with
          | .error e => .error e
          | .ok v =>
              match selfUnwrap cols rest with
              | .error e => .error e
              | .ok acc => .ok ((n, v) :: acc)

/-- `has_ak` (table.py lines 284-289): true when a referenced column is a
`VectorOfVectors`. -/
def hasAkCols (cols : List (String × LCol)) (names : List String) : Bool :=
  names.any (fun n =>
    match alookup cols n with
    | some (.vov _) => true
    | _ => false)

/-- Python dict union `a | b` (the `self_unwrap | parameters` of table.py
lines 297 and 317): keys of `a` keep their position with values
overridden by `b`; keys only in `b` are appended. The right operand
(`parameters`) wins on collisions. -/
def dictUnion (a b : List (String × α)) : List (String × α) :=
  (a.map (fun p =>
    match alookup b p.1 with
    | some v => (p.1, v)
    | none => p)) ++ b.filter (fun q => (alookup a q.1).isNone)

/-- The locals mapping handed to either engine: `self_unwrap | parameters`
(table.py lines 297 and 317 — the same expression on both paths). -/
def tableEvalLocalDict (cols : List (String × LCol)) (names : List String)
    (params : List (String × Val)) : Except EvalErr (List (String × Val)) :=
  match selfUnwrap cols names with
  | .error e => .error e
  | .ok su => .ok (dictUnion su params)

/-- `Table.eval(expr, parameters)` (table.py lines 227-332): build the
views, then dispatch on `has_ak`. -/
def Table.evalModel (cols : List (String × LCol)) (e : NExpr)
    (params : List (String × Val)) : Except EvalErr EvalResult :=
  match tableEvalLocalDict cols e.coNames params with
  | .error err => .error err
  | .ok env =>
      if hasAkCols cols e.coNames then evalGeneralPath e env
      else evalFastPath e env

/-!
## Theorems

Sanity checks against the docstring examples of table.py lines 258-271:
the table of `a = [1,2,3]` and ragged `b = [[5],[6,7],[8,9,0]]` evaluates
`a + b` to the ragged `[[6],[8,9],[11,12,3]]`; the all-regular table
`a = [1,2,3]`, `b = [10,20,30]` evaluates `a + b` to `[11,22,33]`.
-/

example :
    Table.evalModel [("a", .arr [1, 2, 3]), ("b", .arr [10, 20, 30])]
      (.add (.var "a") (.var "b")) [] =
      .ok (.array ⟨[3], [11, 22, 33]⟩) := rfl

example :
    Table.evalModel [("a", .arr [1, 2, 3]), ("b", .vov [[5], [6, 7], [8, 9, 0]])]
      (.add (.var "a") (.var "b")) [] =
      .ok (.vov [[6], [8, 9], [11, 12, 3]]) := rfl

theorem resizeWith_length (pad : α) (n : Nat) (l : List α) :
    (resizeWith pad n l).length = n := by
  simp [resizeWith]
  omega

theorem lenIs_iff {c : LCol} {n : Nat} : lenIs c n = true ↔ c.colLen = .ok n := by
  unfold lenIs
  cases h : c.colLen <;> simp

mutual

/-- A successful `obj.resize(n)` leaves the column with length `n`. -/
theorem LCol.resize_lenIs (c : LCol) (n : Nat) (c' : LCol)
    (h : c.resize n = .ok c') : lenIs c' n = true := by
  cases c with
  | arr d =>
      simp only [LCol.resize, Except.ok.injEq] at h
      subst h
      simp [lenIs, LCol.colLen, resizeWith_length]
  | aoesa d =>
      simp only [LCol.resize, Except.ok.injEq] at h
      subst h
      simp [lenIs, LCol.colLen, resizeWith_length]
  | vov d =>
      simp only [LCol.resize, Except.ok.injEq] at h
      subst h
      simp [lenIs, LCol.colLen, resizeWith_length]
  | scal v => simp [LCol.resize] at h
  | tbl t =>
      cases t with
      | mk s cs l =>
          simp only [LCol.resize, LTable.resizeGo] at h
          cases hrc : LTable.resizeCols (some n) cs with
          | error e => rw [hrc] at h; cases h
          | ok p =>
              rw [hrc] at h
              obtain ⟨ns', cs'⟩ := p
              simp only [Except.ok.injEq] at h
              subst h
              have := LTable.resizeCols_some n cs cs' ns' hrc
              simp [lenIs, LCol.colLen, this.1]

/-- The field loop of `Table.resize` with a fixed target `n`: it returns
`n` as the agreed size, resizes every mismatched column so every returned
column has length `n`, and preserves the field names. -/
theorem LTable.resizeCols_some (n : Nat) (cs cs' : List (String × LCol))
    (ns' : Option Nat) (h : LTable.resizeCols (some n) cs = .ok (ns', cs')) :
    ns' = some n ∧ (∀ p ∈ cs', lenIs p.2 n = true) ∧
      cs'.map (·.1) = cs.map (·.1) := by
  cases cs with
  | nil =>
      simp only [LTable.resizeCols, Except.ok.injEq, Prod.mk.injEq] at h
      obtain ⟨h1, h2⟩ := h
      subst h1; subst h2
      simp
  | cons fo rest =>
      obtain ⟨f, o⟩ := fo
      simp only [LTable.resizeCols] at h
      cases hl : o.colLen with
      | error e => rw [hl] at h; dsimp only at h; cases h
      | ok l =>
          rw [hl] at h
          dsimp only at h
          by_cases hln : l ≠ n
          · rw [if_pos hln] at h
            cases hr : o.resize n with
            | error e => rw [hr] at h; dsimp only at h; cases h
            | ok o' =>
                rw [hr] at h
                dsimp only at h
                cases hrest : LTable.resizeCols (some n) rest with
                | error e => rw [hrest] at h; dsimp only at h; cases h
                | ok p =>
                    rw [hrest] at h
                    obtain ⟨ns2, rest2⟩ := p
                    dsimp only at h
                    simp only [Except.ok.injEq, Prod.mk.injEq] at h
                    obtain ⟨h1, h2⟩ := h
                    subst h1; subst h2
                    have ih := LTable.resizeCols_some n rest rest2 ns2 hrest
                    refine ⟨ih.1, ?_, by simp [ih.2.2]⟩
                    intro p hp
                    rcases List.mem_cons.mp hp with hp | hp
                    · subst hp
                      exact LCol.resize_lenIs o n o' hr
                    · exact ih.2.1 p hp
          · rw [if_neg hln] at h
            push_neg at hln
            cases hrest : LTable.resizeCols (some n) rest with
            | error e => rw [hrest] at h; dsimp only at h; cases h
            | ok p =>
                rw [hrest] at h
                obtain ⟨ns2, rest2⟩ := p
                dsimp only at h
                simp only [Except.ok.injEq, Prod.mk.injEq] at h
                obtain ⟨h1, h2⟩ := h
                subst h1; subst h2
                have ih := LTable.resizeCols_some n rest rest2 ns2 hrest
                refine ⟨ih.1, ?_, by simp [ih.2.2]⟩
                intro p hp
                rcases List.mem_cons.mp hp with hp | hp
                · subst hp
                  simp [lenIs_iff, hl, hln]
                · exact ih.2.1 p hp

end

theorem sizeOk_mk_some {n : Nat} {cs : List (String × LCol)} {l : Nat} :
    (LTable.mk (some n) cs l).sizeOk = true ↔ ∀ p ∈ cs, lenIs p.2 n = true := by
  simp [LTable.sizeOk, LTable.size, LTable.cols, List.all_eq_true]

theorem sizeOk_mk_none {cs : List (String × LCol)} {l : Nat} :
    (LTable.mk none cs l).sizeOk = true ↔ cs = [] := by
  cases cs <;> simp [LTable.sizeOk, LTable.size, LTable.cols]

/-- `Table.resize` with an explicit target `n`: on success the table has
`size = n`, every column has length `n`, and names and `loc` survive. -/
theorem LTable.resizeGo_some {t : LTable} {n : Nat} {t' : LTable}
    (h : LTable.resizeGo t (some n) = .ok t') :
    t'.size = some n ∧ t'.sizeOk = true ∧
      t'.cols.map (·.1) = t.cols.map (·.1) ∧ t'.loc = t.loc := by
  obtain ⟨s, cs, l⟩ := t
  simp only [LTable.resizeGo] at h
  cases hrc : LTable.resizeCols (some n) cs with
  | error e => rw [hrc] at h; cases h
  | ok p =>
      rw [hrc] at h
      obtain ⟨ns', cs'⟩ := p
      dsimp only at h
      simp only [Except.ok.injEq] at h
      subst h
      obtain ⟨h1, h2, h3⟩ := LTable.resizeCols_some n cs cs' ns' hrc
      subst h1
      exact ⟨rfl, sizeOk_mk_some.mpr h2, h3, rfl⟩

/-- `Table.resize` establishes the size invariant however it is called. -/
theorem LTable.resizeGo_sizeOk {t : LTable} {ns : Option Nat} {t' : LTable}
    (h : LTable.resizeGo t ns = .ok t') : t'.sizeOk = true ∧ t'.loc = t.loc := by
  cases ns with
  | some n =>
      obtain ⟨_, h2, _, h4⟩ := LTable.resizeGo_some h
      exact ⟨h2, h4⟩
  | none =>
      obtain ⟨s, cs, l⟩ := t
      simp only [LTable.resizeGo] at h
      cases cs with
      | nil =>
          simp only [LTable.resizeCols, Except.ok.injEq] at h
          subst h
          exact ⟨sizeOk_mk_none.mpr rfl, rfl⟩
      | cons fo rest =>
          obtain ⟨f, o⟩ := fo
          simp only [LTable.resizeCols] at h
          cases hl : o.colLen with
          | error e => rw [hl] at h; dsimp only at h; cases h
          | ok l0 =>
              rw [hl] at h
              dsimp only at h
              cases hrest : LTable.resizeCols (some l0) rest with
              | error e => rw [hrest] at h; dsimp only at h; cases h
              | ok p =>
                  rw [hrest] at h
                  obtain ⟨ns2, rest2⟩ := p
                  dsimp only at h
                  simp only [Except.ok.injEq] at h
                  subst h
                  obtain ⟨h1, h2, _⟩ := LTable.resizeCols_some l0 rest rest2 ns2 hrest
                  subst h1
                  refine ⟨sizeOk_mk_some.mpr ?_, rfl⟩
                  intro p hp
                  rcases List.mem_cons.mp hp with hp | hp
                  · subst hp
                    simp [lenIs_iff, hl]
                  · exact h2 p hp

/-- Membership in the `Struct` field update: a field of the updated
mapping is the new binding or one of the old ones. -/
theorem updateAssoc_mem {cols : List (String × α)} {name : String} {v : α}
    {p : String × α} (h : p ∈ updateAssoc cols name v) :
    p = (name, v) ∨ p ∈ cols := by
  unfold updateAssoc at h
  by_cases ha : cols.any (·.1 = name)
  · rw [if_pos ha] at h
    obtain ⟨q, hq, hpq⟩ := List.mem_map.mp h
    by_cases hq1 : q.1 = name
    · rw [if_pos hq1] at hpq; exact Or.inl hpq.symm
    · rw [if_neg hq1] at hpq; exact Or.inr (hpq ▸ hq)
  · rw [if_neg ha] at h
    rcases List.mem_append.mp h with h | h
    · exact Or.inr h
    · exact Or.inl (List.mem_singleton.mp h)

/-- A column with a successful `len` has the `__len__` capability. -/
theorem colLen_hasLen {c : LCol} {l : Nat} (h : c.colLen = .ok l) :
    c.hasLen = true := by
  cases c with
  | tbl t => simp [LCol.hasLen]
  | scal v => simp [LCol.colLen] at h
  | arr d => simp [LCol.hasLen]
  | aoesa d => simp [LCol.hasLen]
  | vov d => simp [LCol.hasLen]

/-- `Table.add_field` preserves the size invariant. -/
theorem LTable.addField_sizeOk {t : LTable} {name : String} {obj : LCol}
    {u : Bool} {t' : LTable} (hinv : t.sizeOk = true)
    (h : t.addField name obj u = .ok t') : t'.sizeOk = true := by
  obtain ⟨s, cs, l⟩ := t
  simp only [LTable.addField] at h
  by_cases hh : obj.hasLen
  · rw [if_neg (by simp [hh])] at h
    cases hl : obj.colLen with
    | error e => rw [hl] at h; dsimp only at h; cases h
    | ok lo =>
        rw [hl] at h
        dsimp only at h
        cases s with
        | none =>
            dsimp only [LTable.size] at h
            by_cases hne : lo ≠ lo
            · exact absurd rfl hne
            · rw [if_neg hne] at h
              simp only [Except.ok.injEq] at h
              subst h
              refine sizeOk_mk_some.mpr ?_
              intro p hp
              rcases updateAssoc_mem hp with hp | hp
              · subst hp; simp [lenIs_iff, hl]
              · exact absurd (sizeOk_mk_none.mp hinv ▸ hp) (List.not_mem_nil p)
        | some n =>
            dsimp only [LTable.size] at h
            by_cases hne : n ≠ lo
            · rw [if_pos hne] at h
              exact (LTable.resizeGo_sizeOk h).1
            · rw [if_neg hne] at h
              push_neg at hne
              simp only [Except.ok.injEq] at h
              subst h
              refine sizeOk_mk_some.mpr ?_
              intro p hp
              rcases updateAssoc_mem hp with hp | hp
              · subst hp; simp [lenIs_iff, hl, hne]
              · exact sizeOk_mk_some.mp hinv p hp
  · rw [if_pos (by simp [hh])] at h
    cases h

/-- `Table.__init__` establishes the size invariant. -/
theorem Table.init_sizeOk {sz : Option Nat} {cd : List (String × LCol)}
    {t : LTable} (h : Table.init sz cd = .ok t) : t.sizeOk = true := by
  unfold Table.init at h
  by_cases hcd : cd.length > 0
  · rw [if_pos hcd] at h
    exact (LTable.resizeGo_sizeOk h).1
  · rw [if_neg hcd] at h
    simp only [Except.ok.injEq] at h
    subst h
    cases sz <;> simp [initEmptySize, sizeOk_mk_none, sizeOk_mk_some]

/-- The field loop of `Table.resize` is a no-op when every column already
has the target length. -/
theorem LTable.resizeCols_noop {n : Nat} : ∀ {cs : List (String × LCol)},
    (∀ p ∈ cs, lenIs p.2 n = true) →
      LTable.resizeCols (some n) cs = .ok (some n, cs) := by
  intro cs
  induction cs with
  | nil => intro _; rfl
  | cons fo rest ih =>
      intro hall
      obtain ⟨f, o⟩ := fo
      have ho : o.colLen = .ok n :=
        lenIs_iff.mp (hall (f, o) (List.mem_cons_self _ _))
      have hrest := ih (fun p hp => hall p (List.mem_cons_of_mem _ hp))
      simp [LTable.resizeCols, ho, hrest]

/-- C1: For every Table, every column `c` satisfies
`c.length() == table.size` immediately after construction, after every
`add_field`/`add_column` call, and after every `resize` call; a nested
`Table` column that gets resized is resized recursively, re-establishing
its own invariant with the new size. (The `add_field` clause assumes the
invariant held before the call, as the invariant is maintained by every
size-affecting mutation; the mutations are fallible in Python, so each
clause is stated of a successful call.) -/
theorem claim_C1 :
    (∀ (sz : Option Nat) (cd : List (String × LCol)) (t : LTable),
        Table.init sz cd = .ok t → t.sizeOk = true) ∧
    (∀ (t : LTable) (name : String) (obj : LCol) (u : Bool) (t' : LTable),
        t.sizeOk = true → t.addField name obj u = .ok t' → t'.sizeOk = true) ∧
    (∀ (t : LTable) (ns : Option Nat) (t' : LTable),
        LTable.resizeGo t ns = .ok t' → t'.sizeOk = true) ∧
    (∀ (tin : LTable) (n : Nat) (c' : LCol),
        (LCol.tbl tin).resize n = .ok c' →
          ∃ t', c' = .tbl t' ∧ t'.size = some n ∧ t'.sizeOk = true) := by
  refine ⟨fun _ _ _ h => Table.init_sizeOk h,
    fun _ _ _ _ _ hinv h => LTable.addField_sizeOk hinv h,
    fun _ _ _ h => (LTable.resizeGo_sizeOk h).1, ?_⟩
  intro tin n c' h
  simp only [LCol.resize] at h
  cases hg : LTable.resizeGo tin (some n) with
  | error e => rw [hg] at h; cases h
  | ok t' =>
      rw [hg] at h
      dsimp only at h
      simp only [Except.ok.injEq] at h
      subst h
      obtain ⟨h1, h2, _⟩ := LTable.resizeGo_some hg
      exact ⟨t', rfl, h1, h2⟩

theorem claim_C1_witness :
    ((LTable.mk (some 2) [("a", LCol.arr [1, 2])] 0).sizeOk = true) ∧
    ((LTable.mk (some 2) [("a", LCol.arr [9, 9]), ("b", LCol.arr [1, 2])] 0).sizeOk
        = true) ∧
    ((LTable.mk (some 2) [("a", LCol.arr [4, 5])] 7).sizeOk = true) ∧
    (∃ t', (LCol.tbl (.mk (some 1) [("x", LCol.arr [1])] 0)) = .tbl t' ∧
        t'.size = some 1 ∧ t'.sizeOk = true) := by
  refine ⟨?_, ?_, ?_, ?_⟩
  · exact claim_C1.1 (some 2) [("a", LCol.arr [1, 2, 3])] _ rfl
  · exact claim_C1.2.1 (LTable.mk (some 2) [("a", LCol.arr [9, 9])] 0) "b"
      (LCol.arr [1, 2, 3]) false _ rfl rfl
  · exact claim_C1.2.2.1 (LTable.mk (some 1) [("a", LCol.arr [4, 5, 6])] 7)
      (some 2) _ rfl
  · exact claim_C1.2.2.2 (LTable.mk (some 3) [("x", LCol.arr [1, 2, 3])] 0) 1 _ rfl

/-- C2: the code evaluated at `Table()` — no `size`, no `col_dict`. Line
81 of table.py reads `self.size = size if size is not None else None`,
which always equals `size`: the table ends with `size` unset (`None`),
*not* the default 1024 documented in the constructor docstring (lines
54-56, "If neither is provided, a default length of 1024 is used") and in
the spec. The second half of the claim holds: an explicit `size` with
empty columns is stored as given. -/
theorem claim_C2 :
    Table.init none [] = .ok (.mk none [] 0) ∧
      (LTable.mk none [] 0).size = none ∧
      (LTable.mk none [] 0).size ≠ some 1024 ∧
      initEmptySize none = none ∧
      (∀ (s : Nat), Table.init (some s) [] = .ok (.mk (some s) [] 0)) :=
  ⟨rfl, rfl, by simp [LTable.size], rfl, fun _ => rfl⟩

/-- C6 counterexample: a zero-column table with `size = 5`. `resize()`
with no argument leaves the loop without ever setting `new_size`, and
`self.size = new_size` stores `None`: the size is *changed* (unset), not
reassigned to its current value. -/
theorem claim_C6_counterexample :
    LTable.resizeGo (.mk (some 5) [] 0) none = .ok (.mk none [] 0) ∧
      (LTable.mk none [] 0).size ≠ (LTable.mk (some 5) [] 0).size :=
  ⟨rfl, by simp [LTable.size]⟩

/-- C6 amended: for every table with *at least one column*, calling
`resize()` with no argument when all columns already agree in length with
`size` mutates nothing: the table (size, columns, cursor) is returned
unchanged. (The original claim fails for zero-column tables, whose `size`
is overwritten with `None`.) -/
theorem claim_C6 (n lo : Nat) (cs : List (String × LCol)) (hne : cs ≠ [])
    (hall : ∀ p ∈ cs, lenIs p.2 n = true) :
    LTable.resizeGo (.mk (some n) cs lo) none = .ok (.mk (some n) cs lo) := by
  cases cs with
  | nil => exact absurd rfl hne
  | cons fo rest =>
      obtain ⟨f, o⟩ := fo
      have ho : o.colLen = .ok n :=
        lenIs_iff.mp (hall (f, o) (List.mem_cons_self _ _))
      have hrest :=
        @LTable.resizeCols_noop n rest (fun p hp => hall p (List.mem_cons_of_mem _ hp))
      simp [LTable.resizeGo, LTable.resizeCols, ho, hrest]

theorem claim_C6_witness :
    LTable.resizeGo (.mk (some 3) [("a", LCol.arr [1, 2, 3])] 1) none =
      .ok (.mk (some 3) [("a", LCol.arr [1, 2, 3])] 1) :=
  claim_C6 3 1 [("a", LCol.arr [1, 2, 3])] (by simp) (by decide)

theorem LTable.pushRow_loc (t : LTable) :
    t.pushRow.loc = t.loc + 1 ∧ t.pushRow.size = t.size := by
  obtain ⟨s, cs, l⟩ := t
  exact ⟨rfl, rfl⟩

theorem LTable.clear_loc (t : LTable) :
    t.clear.loc = 0 ∧ t.clear.size = t.size := by
  obtain ⟨s, cs, l⟩ := t
  exact ⟨rfl, rfl⟩

theorem LTable.pushRow_iterate (k : Nat) (t : LTable) :
    (LTable.pushRow^[k] t).loc = t.loc + k ∧
      (LTable.pushRow^[k] t).size = t.size := by
  induction k generalizing t with
  | zero => simp
  | succ m ih =>
      rw [Function.iterate_succ_apply]
      obtain ⟨h1, h2⟩ := ih t.pushRow
      obtain ⟨p1, p2⟩ := LTable.pushRow_loc t
      refine ⟨?_, by rw [h2, p2]⟩
      rw [h1, p1]
      omega

/-- C8: the write cursor. `loc` is 0 at construction regardless of size;
`push_row()` adds exactly 1 with no upper clamp; `clear()` zeroes it;
`is_full()` returns `loc >= size`; consequently `size` pushes from a
fresh `clear()` make `is_full()` true, and a further `clear()` makes it
false again (for `size > 0`). -/
theorem claim_C8 :
    (∀ (sz : Option Nat) (cd : List (String × LCol)) (t : LTable),
        Table.init sz cd = .ok t → t.loc = 0) ∧
    (∀ (t : LTable), t.pushRow.loc = t.loc + 1 ∧ t.pushRow.size = t.size) ∧
    (∀ (t : LTable), t.clear.loc = 0 ∧ t.clear.size = t.size) ∧
    (∀ (t : LTable) (n : Nat), t.size = some n →
        t.isFull = .ok (decide (t.loc ≥ n))) ∧
    (∀ (t : LTable) (n : Nat), t.size = some n → 0 < n →
        (LTable.pushRow^[n] t.clear).isFull = .ok true ∧
        ((LTable.pushRow^[n] t.clear).clear).isFull = .ok false) := by
  refine ⟨?_, LTable.pushRow_loc, LTable.clear_loc, ?_, ?_⟩
  · intro sz cd t h
    unfold Table.init at h
    by_cases hcd : cd.length > 0
    · rw [if_pos hcd] at h
      exact (LTable.resizeGo_sizeOk h).2
    · rw [if_neg hcd] at h
      simp only [Except.ok.injEq] at h
      subst h
      rfl
  · intro t n h
    simp [LTable.isFull, h]
  · intro t n h hn
    obtain ⟨h1, h2⟩ := LTable.pushRow_iterate n t.clear
    obtain ⟨c1, c2⟩ := LTable.clear_loc t
    constructor
    · simp [LTable.isFull, h2, c2, h, h1, c1]
    · have g2 := (LTable.clear_loc (LTable.pushRow^[n] t.clear)).2
      have g1 := (LTable.clear_loc (LTable.pushRow^[n] t.clear)).1
      simp [LTable.isFull, g1, g2, h2, c2, h]
      omega

theorem alookup_mem {cols : List (String × α)} {name : String} {v : α}
    (h : alookup cols name = some v) : (name, v) ∈ cols := by
  induction cols with
  | nil => cases h
  | cons q rest ih =>
      obtain ⟨k, w⟩ := q
      simp only [alookup] at h
      by_cases hk : name = k
      · rw [if_pos hk] at h
        simp only [Option.some.injEq] at h
        subst h
        subst hk
        exact List.mem_cons_self _ _
      · rw [if_neg hk] at h
        exact List.mem_cons_of_mem _ (ih h)

theorem alookup_isSome_iff_keys {cols : List (String × α)} {name : String} :
    (alookup cols name).isSome ↔ name ∈ cols.map (·.1) := by
  induction cols with
  | nil => simp [alookup]
  | cons q rest ih =>
      obtain ⟨k, w⟩ := q
      simp only [alookup]
      by_cases hk : name = k
      · subst hk
        simp
      · rw [if_neg hk]
        simp [ih, hk]

theorem alookup_eq_none_of_any_false {cols : List (String × α)} {name : String}
    (ha : cols.any (·.1 = name) = false) : alookup cols name = none := by
  induction cols with
  | nil => rfl
  | cons q rest ih =>
      obtain ⟨k, w⟩ := q
      simp only [List.any_cons, Bool.or_eq_false_iff] at ha
      simp only [alookup]
      rw [if_neg (fun h => by simp [h.symm] at ha)]
      exact ih ha.2

theorem alookup_map_update {cols : List (String × α)} {name : String} {v : α}
    (ha : cols.any (·.1 = name) = true) :
    alookup (cols.map (fun p => if p.1 = name then (name, v) else p)) name
      = some v := by
  induction cols with
  | nil => simp at ha
  | cons q rest ih =>
      obtain ⟨k, w⟩ := q
      simp only [List.any_cons, Bool.or_eq_true] at ha
      simp only [List.map_cons]
      by_cases hk : k = name
      · rw [show (if (k, w).1 = name then (name, v) else (k, w)) = (name, v)
          from if_pos hk]
        simp [alookup]
      · rw [show (if (k, w).1 = name then (name, v) else (k, w)) = (k, w)
          from if_neg hk]
        have hrest : rest.any (·.1 = name) = true := by
          rcases ha with h1 | h1
          · exact absurd (by simpa using h1) hk
          · exact h1
        simp only [alookup]
        rw [if_neg (fun h => hk h.symm)]
        exact ih hrest

theorem alookup_append_new {cols : List (String × α)} {name : String} {v : α} :
    alookup (cols ++ [(name, v)]) name = some ((alookup cols name).getD v) := by
  induction cols with
  | nil => simp [alookup]
  | cons q rest ih =>
      obtain ⟨k, w⟩ := q
      rw [List.cons_append]
      simp only [alookup]
      by_cases hk : name = k
      · rw [if_pos hk, if_pos hk]
        rfl
      · rw [if_neg hk, if_neg hk]
        exact ih

theorem alookup_updateAssoc_self {cols : List (String × α)} {name : String}
    {v : α} : alookup (updateAssoc cols name v) name = some v := by
  unfold updateAssoc
  by_cases ha : cols.any (·.1 = name)
  · rw [if_pos ha]
    exact alookup_map_update ha
  · rw [if_neg ha]
    rw [alookup_append_new]
    rw [alookup_eq_none_of_any_false (Bool.of_not_eq_true ha)]
    rfl

theorem alookup_updateAssoc_ne {cols : List (String × α)} {name other : String}
    {v : α} (h : other ≠ name) :
    alookup (updateAssoc cols name v) other = alookup cols other := by
  unfold updateAssoc
  by_cases ha : cols.any (·.1 = name)
  · rw [if_pos ha]
    clear ha
    induction cols with
    | nil => rfl
    | cons q rest ih =>
        obtain ⟨k, w⟩ := q
        simp only [List.map_cons]
        by_cases hk : k = name
        · rw [show (if (k, w).1 = name then (name, v) else (k, w)) = (name, v)
            from if_pos hk]
          simp only [alookup]
          rw [if_neg h, if_neg (by rw [hk]; exact h)]
          exact ih
        · rw [show (if (k, w).1 = name then (name, v) else (k, w)) = (k, w)
            from if_neg hk]
          simp only [alookup]
          by_cases ho : other = k
          · rw [if_pos ho, if_pos ho]
          · rw [if_neg ho, if_neg ho]
            exact ih
  · rw [if_neg ha]
    clear ha
    induction cols with
    | nil => simp [alookup, h]
    | cons q rest ih =>
        obtain ⟨k, w⟩ := q
        rw [List.cons_append]
        simp only [alookup]
        by_cases ho : other = k
        · rw [if_pos ho, if_pos ho]
        · rw [if_neg ho, if_neg ho]
          exact ih

/-- The size invariant read back: with `size = n` every column has
length `n`. -/
theorem sizeOk_len {t : LTable} {n : Nat} (h : t.sizeOk = true)
    (hs : t.size = some n) : ∀ p ∈ t.cols, p.2.colLen = .ok n := by
  obtain ⟨s, cs, l⟩ := t
  cases hs
  intro p hp
  exact lenIs_iff.mp (sizeOk_mk_some.mp h p hp)

/-- C3: `add_field(name, col)` on a table whose `size` differs from
`len(col)`. With `use_obj_size = false` the table keeps its size and the
incoming column ends at that size; with `use_obj_size = true` the table
adopts the incoming length and every column (the others included) ends at
that length. Stated of successful calls on a table satisfying the size
invariant. -/
theorem claim_C3 (t : LTable) (name : String) (obj : LCol) (n l : Nat)
    (hsz : t.size = some n) (hinv : t.sizeOk = true)
    (hl : obj.colLen = .ok l) (hne : l ≠ n) :
    (∀ t', t.addField name obj false = .ok t' →
        t'.size = some n ∧
        ∃ c, alookup t'.cols name = some c ∧ c.colLen = .ok n) ∧
    (∀ t', t.addField name obj true = .ok t' →
        t'.size = some l ∧ ∀ p ∈ t'.cols, p.2.colLen = .ok l) := by
  obtain ⟨s, cs, lo⟩ := t
  cases hsz
  constructor
  · intro t' h
    simp only [LTable.addField] at h
    rw [if_neg (by simp [colLen_hasLen hl])] at h
    rw [hl] at h
    dsimp only [LTable.size] at h
    rw [if_pos (fun he => hne he.symm)] at h
    simp only [Bool.false_eq_true, if_false, LTable.cols, LTable.loc] at h
    obtain ⟨h1, h2, h3, _⟩ := LTable.resizeGo_some h
    refine ⟨h1, ?_⟩
    have hkey : name ∈ (t'.cols.map (·.1)) := by
      rw [h3]
      refine alookup_isSome_iff_keys.mp ?_
      dsimp only [LTable.cols]
      rw [@alookup_updateAssoc_self LCol cs name obj]
      rfl
    obtain ⟨c, hc⟩ :=
      Option.isSome_iff_exists.mp (alookup_isSome_iff_keys.mpr hkey)
    exact ⟨c, hc, sizeOk_len h2 h1 (name, c) (alookup_mem hc)⟩
  · intro t' h
    simp only [LTable.addField] at h
    rw [if_neg (by simp [colLen_hasLen hl])] at h
    rw [hl] at h
    dsimp only [LTable.size] at h
    rw [if_pos (fun he => hne he.symm)] at h
    simp only [if_true, LTable.cols, LTable.loc] at h
    obtain ⟨h1, h2, _, _⟩ := LTable.resizeGo_some h
    exact ⟨h1, sizeOk_len h2 h1⟩

theorem claim_C3_witness :
    ((LTable.mk (some 3) [("a", LCol.arr [7, 7, 7]), ("b", LCol.arr [1, 2, 3])] 0).size
        = some 3 ∧
      ∃ c, alookup (LTable.mk (some 3)
          [("a", LCol.arr [7, 7, 7]), ("b", LCol.arr [1, 2, 3])] 0).cols "b"
          = some c ∧ c.colLen = .ok 3) ∧
    ((LTable.mk (some 5)
        [("a", LCol.arr [7, 7, 7, 0, 0]), ("b", LCol.arr [1, 2, 3, 4, 5])] 0).size
        = some 5 ∧
      ∀ p ∈ (LTable.mk (some 5)
          [("a", LCol.arr [7, 7, 7, 0, 0]), ("b", LCol.arr [1, 2, 3, 4, 5])] 0).cols,
        p.2.colLen = .ok 5) := by
  have h := claim_C3 (LTable.mk (some 3) [("a", LCol.arr [7, 7, 7])] 0) "b"
    (LCol.arr [1, 2, 3, 4, 5]) 3 5 rfl rfl rfl (by decide)
  exact ⟨h.1 _ rfl, h.2 _ rfl⟩

/-- In-place reconciliation resizes during `add_field` never allocate:
the heap keeps its cell count. -/
theorem rResizeCols_length {n : Nat} : ∀ {cs : List (String × Nat)} {h h' : Heap},
    rResizeCols n h cs = .ok h' → h'.cells.length = h.cells.length := by
  intro cs
  induction cs with
  | nil =>
      intro h h' hh
      simp only [rResizeCols, Except.ok.injEq] at hh
      rw [hh]
  | cons p rest ih =>
      intro h h' hh
      obtain ⟨f, r⟩ := p
      simp only [rResizeCols] at hh
      cases hg : h.get? r with
      | none => rw [hg] at hh; cases hh
      | some o =>
          rw [hg] at hh
          dsimp only at hh
          cases hl : o.colLen with
          | error e => rw [hl] at hh; dsimp only at hh; cases hh
          | ok l =>
              rw [hl] at hh
              dsimp only at hh
              by_cases hln : l ≠ n
              · rw [if_pos hln] at hh
                cases hr : o.resize n with
                | error e => rw [hr] at hh; dsimp only at hh; cases hh
                | ok o' =>
                    rw [hr] at hh
                    dsimp only at hh
                    rw [ih hh]
                    simp [Heap.set]
              · rw [if_neg hln] at hh
                exact ih hh

/-- `add_field` by reference: the mapping gains the reference `r` itself
(a `Struct` update, no copy) and the heap cell count is unchanged. -/
theorem rAddField_spec {h : Heap} {t : RTable} {name : String} {r : Nat}
    {u : Bool} {h' : Heap} {t' : RTable}
    (hh : RTable.addField h t name r u = .ok (h', t')) :
    t'.cols = updateAssoc t.cols name r ∧
      h'.cells.length = h.cells.length ∧ t'.loc = t.loc := by
  simp only [RTable.addField] at hh
  cases hg : h.get? r with
  | none => rw [hg] at hh; cases hh
  | some o =>
      rw [hg] at hh
      dsimp only at hh
      by_cases hlen : o.hasLen
      · rw [if_neg (by simp [hlen])] at hh
        cases hl : o.colLen with
        | error e => rw [hl] at hh; dsimp only at hh; cases hh
        | ok l =>
            rw [hl] at hh
            dsimp only at hh
            by_cases hne : (match t.size with | none => l | some n => n) ≠ l
            · rw [if_pos hne] at hh
              cases hres : rResizeCols
                  (if u then l else (match t.size with | none => l | some n => n))
                  h (updateAssoc t.cols name r) with
              | error e => rw [hres] at hh; dsimp only at hh; cases hh
              | ok h2 =>
                  rw [hres] at hh
                  dsimp only at hh
                  simp only [Except.ok.injEq, Prod.mk.injEq] at hh
                  obtain ⟨hh1, hh2⟩ := hh
                  subst hh1; subst hh2
                  exact ⟨rfl, rResizeCols_length hres, rfl⟩
            · rw [if_neg hne] at hh
              simp only [Except.ok.injEq, Prod.mk.injEq] at hh
              obtain ⟨hh1, hh2⟩ := hh
              subst hh1; subst hh2
              exact ⟨rfl, rfl, rfl⟩
      · rw [if_pos (by simp [hlen])] at hh
        cases hh

/-- The join loop: every processed name ends bound to `other`'s reference
for that name, every other name keeps its previous binding, and the heap
never grows. -/
theorem rJoinGo_spec {other : RTable} : ∀ {cs : List String} {h : Heap}
    {t : RTable} {h' : Heap} {t' : RTable},
    rJoinGo other h t cs = .ok (h', t') →
      (∀ name, (name ∈ cs → alookup t'.cols name = alookup other.cols name) ∧
        (name ∉ cs → alookup t'.cols name = alookup t.cols name)) ∧
      h'.cells.length = h.cells.length := by
  intro cs
  induction cs with
  | nil =>
      intro h t h' t' hh
      simp only [rJoinGo, Except.ok.injEq, Prod.mk.injEq] at hh
      obtain ⟨hh1, hh2⟩ := hh
      subst hh1; subst hh2
      exact ⟨fun name => ⟨fun hn => absurd hn (List.not_mem_nil name), fun _ => rfl⟩,
        rfl⟩
  | cons c rest ih =>
      intro h t h' t' hh
      simp only [rJoinGo] at hh
      cases hr : alookup other.cols c with
      | none => rw [hr] at hh; cases hh
      | some r =>
          rw [hr] at hh
          dsimp only at hh
          cases ha : RTable.addField h t c r false with
          | error e => rw [ha] at hh; dsimp only at hh; cases hh
          | ok p =>
              rw [ha] at hh
              obtain ⟨h1, t1⟩ := p
              dsimp only at hh
              obtain ⟨ihp, ihlen⟩ := ih hh
              obtain ⟨hcols, hlen, _⟩ := rAddField_spec ha
              refine ⟨fun name => ⟨?_, ?_⟩, by rw [ihlen, hlen]⟩
              · intro hn
                by_cases hinrest : name ∈ rest
                · exact (ihp name).1 hinrest
                · have hnc : name = c := by
                    rcases List.mem_cons.mp hn with h1 | h1
                    · exact h1
                    · exact absurd h1 hinrest
                  subst hnc
                  rw [(ihp name).2 hinrest, hcols, alookup_updateAssoc_self, hr]
              · intro hn
                have hnc : name ≠ c := fun he => hn (he ▸ List.mem_cons_self _ _)
                have hnr : name ∉ rest := fun he => hn (List.mem_cons_of_mem _ he)
                rw [(ihp name).2 hnr, hcols, alookup_updateAssoc_ne hnc]

/-- C4: after `t2.join(t1, cols)`, every joined column name is bound in
`t2` to the *identical* heap reference it has in `t1` (the same underlying
column object, no copy — the heap gains no cell), so reading that column
through `t2` and through `t1` dereferences the same cell under *every*
subsequent heap state: an in-place mutation of `t1[n]` is observable
through `t2[n]` and vice versa. (`t1` itself is not touched by the join:
the loop only calls `self.add_column` on `t2`, which the model reflects by
leaving `t1` an unmodified input.) -/
theorem claim_C4 (h : Heap) (t2 t1 : RTable) (csel : Option (List String))
    (h' : Heap) (t2' : RTable)
    (hj : RTable.join h t2 t1 csel = .ok (h', t2')) :
    (∀ name ∈ joinedNames t1 csel,
        alookup t2'.cols name = alookup t1.cols name) ∧
    h'.cells.length = h.cells.length ∧
    (∀ (hh : Heap), ∀ name ∈ joinedNames t1 csel,
        RTable.readCol hh t2' name = RTable.readCol hh t1 name) := by
  unfold RTable.join at hj
  obtain ⟨hp, hlen⟩ := rJoinGo_spec hj
  refine ⟨fun name hn => (hp name).1 hn, hlen, fun hh name hn => ?_⟩
  unfold RTable.readCol
  rw [(hp name).1 hn]

theorem claim_C4_witness :
    (∀ name ∈ joinedNames ({ size := some 3, cols := [("x", 0)], loc := 0 } : RTable)
        none,
      alookup [("x", 0)] name = alookup [("x", 0)] name) ∧
    ([LCol.arr [1, 2, 3]].length = [LCol.arr [1, 2, 3]].length) ∧
    (∀ (hh : Heap),
      ∀ name ∈ joinedNames ({ size := some 3, cols := [("x", 0)], loc := 0 } : RTable)
          none,
        RTable.readCol hh { size := some 3, cols := [("x", 0)], loc := 0 } name =
          RTable.readCol hh { size := some 3, cols := [("x", 0)], loc := 0 } name) :=
  claim_C4 ⟨[LCol.arr [1, 2, 3]]⟩ { size := some 3, cols := [], loc := 0 }
    { size := some 3, cols := [("x", 0)], loc := 0 } none
    ⟨[LCol.arr [1, 2, 3]]⟩ { size := some 3, cols := [("x", 0)], loc := 0 } rfl

theorem alookup_append {xs ys : List (String × α)} {name : String} :
    alookup (xs ++ ys) name =
      match alookup xs name with
      | some v => some v
      | none => alookup ys name := by
  induction xs with
  | nil => rfl
  | cons q rest ih =>
      obtain ⟨k, w⟩ := q
      rw [List.cons_append]
      simp only [alookup]
      by_cases hk : name = k
      · rw [if_pos hk, if_pos hk]
      · rw [if_neg hk, if_neg hk]
        exact ih

/-- A filter that keeps every entry keyed `name` does not change what
`name` looks up to. -/
theorem alookup_filter_keep {b : List (String × α)} {name : String}
    {P : String × α → Bool} (hkeep : ∀ q ∈ b, q.1 = name → P q = true) :
    alookup (b.filter P) name = alookup b name := by
  induction b with
  | nil => rfl
  | cons q rest ih =>
      obtain ⟨k, w⟩ := q
      have ihr := ih (fun q hq hn => hkeep q (List.mem_cons_of_mem _ hq) hn)
      rw [List.filter_cons]
      by_cases hk : name = k
      · rw [if_pos (hkeep (k, w) (List.mem_cons_self _ _) hk.symm)]
        simp only [alookup]
        rw [if_pos hk, if_pos hk]
      · by_cases hP : P (k, w)
        · rw [if_pos hP]
          simp only [alookup]
          rw [if_neg hk, if_neg hk]
          exact ihr
        · rw [if_neg hP]
          simp only [alookup]
          rw [if_neg hk]
          exact ihr

/-- In the overridden part of a dict union, a key of `a` that `b` also
binds looks up to `b`'s value. -/
theorem alookup_dictUnion_map {a b : List (String × α)} {name : String}
    {v : α} (ha : a.any (·.1 = name) = true) (h : alookup b name = some v) :
    alookup (a.map (fun p =>
      match alookup b p.1 with
      | some w => (p.1, w)
      | none => p)) name = some v := by
  induction a with
  | nil => simp at ha
  | cons q rest ih =>
      obtain ⟨k, w⟩ := q
      simp only [List.any_cons, Bool.or_eq_true] at ha
      simp only [List.map_cons]
      by_cases hk : k = name
      · subst hk
        rw [h]
        simp [alookup]
      · have hrest : rest.any (·.1 = name) = true := by
          rcases ha with h1 | h1
          · exact absurd (by simpa using h1) hk
          · exact h1
        cases hb : alookup b k with
        | some w2 =>
            simp only [alookup]
            rw [if_neg (fun he => hk he.symm)]
            exact ih hrest
        | none =>
            simp only [alookup]
            rw [if_neg (fun he => hk he.symm)]
            exact ih hrest

/-- If `a` does not bind `name`, neither does the overridden part. -/
theorem alookup_dictUnion_map_none {a b : List (String × α)} {name : String}
    (ha : a.any (·.1 = name) = false) :
    alookup (a.map (fun p =>
      match alookup b p.1 with
      | some w => (p.1, w)
      | none => p)) name = none := by
  induction a with
  | nil => rfl
  | cons q rest ih =>
      obtain ⟨k, w⟩ := q
      simp only [List.any_cons, Bool.or_eq_false_iff] at ha
      simp only [List.map_cons]
      have hk : name ≠ k := fun he => by simp [he.symm] at ha
      cases hb : alookup b k with
      | some w2 =>
          simp only [alookup]
          rw [if_neg hk]
          exact ih ha.2
      | none =>
          simp only [alookup]
          rw [if_neg hk]
          exact ih ha.2

/-- Python dict union is right-biased: a key bound in `b` looks up to
`b`'s value in `a | b`. -/
theorem alookup_dictUnion_right {a b : List (String × α)} {name : String}
    {v : α} (h : alookup b name = some v) :
    alookup (dictUnion a b) name = some v := by
  unfold dictUnion
  rw [alookup_append]
  by_cases ha : a.any (·.1 = name)
  · rw [alookup_dictUnion_map ha h]
  · rw [alookup_dictUnion_map_none (Bool.of_not_eq_true ha)]
    rw [alookup_filter_keep (fun q _ hq => by
      rw [hq, alookup_eq_none_of_any_false (Bool.of_not_eq_true ha)]
      rfl)]
    rw [h]

/-- C5: on the fast path (no referenced column ragged), `eval` wraps the
array computed by `numexpr` purely by its dimensionality — 0 → `Scalar`,
1 → `Array`, 2 → `ArrayOfEqualSizedArrays` — and raises the
`RuntimeError` of lines 309-313 exactly when the dimensionality is 3 or
more. -/
theorem claim_C5 (cols : List (String × LCol)) (e : NExpr)
    (params : List (String × Val)) (env : List (String × Val)) (v : NDArray)
    (henv : tableEvalLocalDict cols e.coNames params = .ok env)
    (hak : hasAkCols cols e.coNames = false)
    (hne : neEvaluate e env = .ok v) :
    Table.evalModel cols e params = wrapNe v ∧
    ((∃ err, Table.evalModel cols e params = .error err) ↔ 3 ≤ v.ndim) ∧
    (v.ndim = 0 → Table.evalModel cols e params = .ok (.scalar v.item)) ∧
    (v.ndim = 1 → Table.evalModel cols e params = .ok (.array v)) ∧
    (v.ndim = 2 → Table.evalModel cols e params = .ok (.aoesa v)) := by
  have hm : Table.evalModel cols e params = wrapNe v := by
    unfold Table.evalModel
    rw [henv]
    dsimp only
    rw [hak]
    simp only [Bool.false_eq_true, if_false]
    unfold evalFastPath
    rw [hne]
  refine ⟨hm, ?_, ?_, ?_, ?_⟩
  · rw [hm]
    unfold wrapNe
    constructor
    · rintro ⟨err, herr⟩
      by_cases h0 : v.ndim = 0
      · rw [if_pos h0] at herr; cases herr
      by_cases h1 : v.ndim = 1
      · rw [if_neg h0, if_pos h1] at herr; cases herr
      by_cases h2 : v.ndim = 2
      · rw [if_neg h0, if_neg h1, if_pos h2] at herr; cases herr
      omega
    · intro h3
      rw [if_neg (by omega), if_neg (by omega), if_neg (by omega)]
      exact ⟨_, rfl⟩
  · intro h0
    rw [hm]
    unfold wrapNe
    rw [if_pos h0]
  · intro h1
    rw [hm]
    unfold wrapNe
    rw [if_neg (by omega), if_pos h1]
  · intro h2
    rw [hm]
    unfold wrapNe
    rw [if_neg (by omega), if_neg (by omega), if_pos h2]

theorem claim_C5_witness :
    Table.evalModel [("a", LCol.arr [1, 2, 3]), ("b", LCol.arr [10, 20, 30])]
        (.add (.var "a") (.var "b")) [] = wrapNe ⟨[3], [11, 22, 33]⟩ ∧
    ((∃ err, Table.evalModel [("a", LCol.arr [1, 2, 3]), ("b", LCol.arr [10, 20, 30])]
        (.add (.var "a") (.var "b")) [] = .error err) ↔
      3 ≤ (⟨[3], [11, 22, 33]⟩ : NDArray).ndim) ∧
    ((⟨[3], [11, 22, 33]⟩ : NDArray).ndim = 0 →
      Table.evalModel [("a", LCol.arr [1, 2, 3]), ("b", LCol.arr [10, 20, 30])]
        (.add (.var "a") (.var "b")) [] =
        .ok (.scalar (⟨[3], [11, 22, 33]⟩ : NDArray).item)) ∧
    ((⟨[3], [11, 22, 33]⟩ : NDArray).ndim = 1 →
      Table.evalModel [("a", LCol.arr [1, 2, 3]), ("b", LCol.arr [10, 20, 30])]
        (.add (.var "a") (.var "b")) [] = .ok (.array ⟨[3], [11, 22, 33]⟩)) ∧
    ((⟨[3], [11, 22, 33]⟩ : NDArray).ndim = 2 →
      Table.evalModel [("a", LCol.arr [1, 2, 3]), ("b", LCol.arr [10, 20, 30])]
        (.add (.var "a") (.var "b")) [] = .ok (.aoesa ⟨[3], [11, 22, 33]⟩)) :=
  claim_C5 [("a", LCol.arr [1, 2, 3]), ("b", LCol.arr [10, 20, 30])]
    (.add (.var "a") (.var "b")) []
    [("a", .nd ⟨[3], [1, 2, 3]⟩), ("b", .nd ⟨[3], [10, 20, 30]⟩)]
    ⟨[3], [11, 22, 33]⟩ rfl rfl rfl

/-- C7 counterexample: `view_as("ak", with_units=True)` raises
`ValueError` (table.py lines 422-424), not a TypeError-class error as the
claim states. -/
theorem claim_C7_counterexample :
    LTable.viewAs (.mk (some 2) [("a", .arr [1, 2]), ("b", .arr [3, 4])] 0)
        "ak" true none =
      .error (.valueError
        "Pint does not support Awkward yet, you must view the data with_units=False") ∧
    isTypeError (LTable.viewAs
        (.mk (some 2) [("a", .arr [1, 2]), ("b", .arr [3, 4])] 0) "ak" true none)
      = false :=
  ⟨rfl, rfl⟩

/-- C7 amended: for every table and every input, `view_as` raises a
TypeError-class error for the plain-array format (`"np"`); raises a
*ValueError*-class error (not TypeError-class) when `with_units=true` is
requested in the record-array format (`"ak"`); and raises a
TypeError-class error ("is not a supported third-party format") for any
format other than `"pd"`, `"np"`, `"ak"`. -/
theorem claim_C7 (t : LTable) (wu : Bool) (cols : Option (List String)) :
    isTypeError (t.viewAs "np" wu cols) = true ∧
    (t.viewAs "ak" true cols = .error (.valueError
      "Pint does not support Awkward yet, you must view the data with_units=False")) ∧
    (∀ lib, lib ≠ "pd" → lib ≠ "np" → lib ≠ "ak" →
        isTypeError (t.viewAs lib wu cols) = true) := by
  refine ⟨rfl, rfl, ?_⟩
  intro lib h1 h2 h3
  unfold LTable.viewAs
  rw [if_neg h1, if_neg h2, if_neg h3]
  rfl

theorem claim_C7_witness :
    isTypeError (LTable.viewAs (.mk (some 1) [("a", .arr [5])] 0) "np" false none)
      = true ∧
    (LTable.viewAs (.mk (some 1) [("a", .arr [5])] 0) "ak" true none =
      .error (.valueError
        "Pint does not support Awkward yet, you must view the data with_units=False")) ∧
    isTypeError (LTable.viewAs (.mk (some 1) [("a", .arr [5])] 0) "pandas" false none)
      = true := by
  have h := claim_C7 (.mk (some 1) [("a", .arr [5])] 0) false none
  exact ⟨h.1, h.2.1, h.2.2 "pandas" (by decide) (by decide) (by decide)⟩

/-- C9 counterexample: on the array-valued overlap expression `a + b`
(regular columns `a = [1,2,3]`, `b = [10,20,30]`), the fast path wraps the
1-dimensional result as an `Array`, while the general-path wrapper — given
the same computed value — raises the `RuntimeError` of lines 328-332,
because a plain `np.ndarray` is neither an `ak.Array` nor accepted by
`np.isscalar`. The two paths are not observably equal. -/
theorem claim_C9_counterexample :
    evalFastPath (.add (.var "a") (.var "b"))
        [("a", Val.nd ⟨[3], [1, 2, 3]⟩), ("b", Val.nd ⟨[3], [10, 20, 30]⟩)] =
      .ok (.array ⟨[3], [11, 22, 33]⟩) ∧
    evalGeneralPath (.add (.var "a") (.var "b"))
        [("a", Val.nd ⟨[3], [1, 2, 3]⟩), ("b", Val.nd ⟨[3], [10, 20, 30]⟩)] =
      .error (.runtimeType "numpy.ndarray") ∧
    evalFastPath (.add (.var "a") (.var "b"))
        [("a", Val.nd ⟨[3], [1, 2, 3]⟩), ("b", Val.nd ⟨[3], [10, 20, 30]⟩)] ≠
      evalGeneralPath (.add (.var "a") (.var "b"))
        [("a", Val.nd ⟨[3], [1, 2, 3]⟩), ("b", Val.nd ⟨[3], [10, 20, 30]⟩)] :=
  ⟨rfl, rfl, by decide⟩

/-- C9 amended: for an expression of the overlap fragment whose
evaluation succeeds, the fast path and the general path produce observably
equal results *exactly when the computed value is a plain scalar* (both
then wrap it as a `Scalar` with the same value); when the computed value
is an array (or ragged), the two paths differ — the general path cannot
wrap a plain `np.ndarray` (it raises `RuntimeError`), and `numexpr`
rejects ragged input the general path would wrap. -/
theorem claim_C9 (e : NExpr) (env : List (String × Val)) (v : Val)
    (h : pyEval e env = .ok v) :
    (evalFastPath e env = evalGeneralPath e env ↔ ∃ z, v = .pint z) := by
  have hf : evalFastPath e env =
      (match v.toND with
       | .error err => .error err
       | .ok a => wrapNe a) := by
    unfold evalFastPath neEvaluate
    rw [h]
  have hg : evalGeneralPath e env = wrapGeneral v := by
    unfold evalGeneralPath
    rw [h]
  rw [hf, hg]
  cases v with
  | pint z =>
      simp only [Val.toND]
      constructor
      · intro _
        exact ⟨z, rfl⟩
      · intro _
        unfold wrapNe wrapGeneral
        rfl
  | nd a =>
      simp only [Val.toND]
      constructor
      · intro heq
        unfold wrapNe wrapGeneral at heq
        by_cases h0 : a.ndim = 0
        · rw [if_pos h0] at heq; cases heq
        by_cases h1 : a.ndim = 1
        · rw [if_neg h0, if_pos h1] at heq; cases heq
        by_cases h2 : a.ndim = 2
        · rw [if_neg h0, if_neg h1, if_pos h2] at heq; cases heq
        rw [if_neg h0, if_neg h1, if_neg h2] at heq
        simp at heq
      · rintro ⟨z, hz⟩
        cases hz
  | akr rows =>
      simp only [Val.toND]
      constructor
      · intro heq
        unfold wrapGeneral at heq
        cases heq
      · rintro ⟨z, hz⟩
        cases hz

theorem claim_C9_witness :
    pyEval (.const 5) [] = .ok (.pint 5) ∧
    (evalFastPath (.const 5) [] = evalGeneralPath (.const 5) [] ↔
      ∃ z, Val.pint 5 = Val.pint z) :=
  ⟨rfl, claim_C9 (.const 5) [] (.pint 5) rfl⟩

/-- C10: when an identifier names both a column and a key of the supplied
`parameters`, the locals mapping `self_unwrap | parameters` handed to both
engines binds it to the parameter value (Python dict union is
right-biased), so on both the fast and the general path the parameter
takes precedence over the column view: the plain-`eval` lookup and the
`numexpr` input both see the parameter value. -/
theorem claim_C10 (cols : List (String × LCol)) (e : NExpr)
    (params : List (String × Val)) (name : String) (c : LCol) (v : Val)
    (env : List (String × Val))
    (henv : tableEvalLocalDict cols e.coNames params = .ok env)
    (_hcol : alookup cols name = some c)
    (hpar : alookup params name = some v) :
    alookup env name = some v ∧ pyEval (.var name) env = .ok v ∧
      neEvaluate (.var name) env = v.toND := by
  unfold tableEvalLocalDict at henv
  cases hsu : selfUnwrap cols e.coNames with
  | error err => rw [hsu] at henv; cases henv
  | ok su =>
      rw [hsu] at henv
      dsimp only at henv
      simp only [Except.ok.injEq] at henv
      subst henv
      have hu := @alookup_dictUnion_right Val su params name v hpar
      refine ⟨hu, by simp [pyEval, hu], ?_⟩
      unfold neEvaluate
      simp [pyEval, hu]

theorem claim_C10_witness :
    alookup [("a", Val.pint 42)] "a" = some (.pint 42) ∧
      pyEval (.var "a") [("a", Val.pint 42)] = .ok (.pint 42) ∧
      neEvaluate (.var "a") [("a", Val.pint 42)] = (Val.pint 42).toND :=
  claim_C10 [("a", LCol.arr [1, 2, 3])] (.var "a") [("a", .pint 42)] "a"
    (LCol.arr [1, 2, 3]) (.pint 42) [("a", .pint 42)] rfl rfl rfl

theorem claim_C8_witness :
    ((LTable.mk (some 4) [] 0).loc = 0) ∧
    ((LTable.mk (some 3) [] 5).pushRow.loc = 5 + 1) ∧
    ((LTable.mk (some 3) [] 5).clear.loc = 0) ∧
    ((LTable.mk (some 3) [] 5).isFull = .ok (decide (5 ≥ 3))) ∧
    ((LTable.pushRow^[3] (LTable.mk (some 3) [] 5).clear).isFull = .ok true) ∧
    (((LTable.pushRow^[3] (LTable.mk (some 3) [] 5).clear).clear).isFull
        = .ok false) := by
  have h5 := claim_C8.2.2.2.2 (LTable.mk (some 3) [] 5) 3 rfl (by decide)
  exact ⟨claim_C8.1 (some 4) [] _ rfl, (claim_C8.2.1 _).1, (claim_C8.2.2.1 _).1,
    claim_C8.2.2.2.1 (LTable.mk (some 3) [] 5) 3 rfl, h5.1, h5.2⟩

end LPD
